import Mathlib

/-
Verification of the EduChat PDF chaptering / chunking / indexing pipeline.

Strings are modelled as lists of characters (Python str values are character
sequences).  Python functions from the repository are translated one-to-one:
  - split_text_into_chunks        (pages/2_Book_Chat.py lines 28-47)
  - extract_chapters_from_pdf     (pages/2_Book_Chat.py lines 49-101, and the
                                   variant in pages/app2.py lines 28-80)
  - extract_chapter_text          (pages/2_Book_Chat.py lines 103-112, and the
                                   variant in pages/app2.py lines 82-89)
  - the sidebar indexing loop     (pages/2_Book_Chat.py lines 213-251)
The PDF readers (PyPDF2, pdfplumber), the regex engine (re.findall) and the
vector store (chromadb) are external collaborators: the data they hand to the
repository code is carried by the environment structure PdfEnv, and the store
is modelled from the spec.  Fallible code (Python code that can raise) returns
Option, with none standing for an uncaught exception.
-/

namespace EduChat

abbrev Str := List Char

/-- The whitespace characters recognised by the default Python str.split. -/
def isPySpace (c : Char) : Bool :=
  c == ' ' || c == '\t' || c == '\n' || c == '\x0b' || c == '\x0c' || c == '\r'

/-- Worker for words: scans the text, accumulating the current word reversed. -/
def wordsGo : Str → Str → List Str
  | [], cur => if cur.isEmpty then [] else [cur.reverse]
  | c :: rest, cur =>
    if isPySpace c then
      if cur.isEmpty then wordsGo rest [] else cur.reverse :: wordsGo rest []
    else wordsGo rest (c :: cur)

/-- Python text.split() with no separator: maximal runs of non-whitespace. -/
def words (s : Str) : List Str := wordsGo s []

/-- Prepends a character to the first part of a split result. -/
def consHead (c : Char) : List Str → List Str
  | [] => [[c]]
  | h :: t => (c :: h) :: t

/-- Python text.split with the two-newline separator: the left-to-right,
non-overlapping split on the paragraph separator used by the chunker. -/
def splitPar : Str → List Str
  | [] => [[]]
  | [c] => [[c]]
  | c :: d :: rest =>
    if c = '\n' ∧ d = '\n' then [] :: splitPar rest
    else consHead c (splitPar (d :: rest))

/-- Python two-newline join of a list of strings. -/
def joinPar : List Str → Str
  | [] => []
  | [p] => p
  | p :: q :: rest => p ++ '\n' :: '\n' :: joinPar (q :: rest)

/-- True when the string has no occurrence of the two-newline separator. -/
def noPar : Str → Bool
  | [] => true
  | [_] => true
  | c :: d :: rest => if c = '\n' ∧ d = '\n' then false else noPar (d :: rest)

/-- Sum of the word counts of a list of paragraphs. -/
def sumWC (g : List Str) : Nat := (g.map (fun p => (words p).length)).sum

/-- The accumulation loop of split_text_into_chunks, kept as paragraph groups:
cur is the list current_chunk, curLen the running word count current_length.
Each emitted group g stands for the chunk obtained as the two-newline join
of g. -/
def chunkGroups (size : Nat) : List Str → List Str → Nat → List (List Str)
  | [], cur, _ => if cur.isEmpty then [] else [cur]
  | p :: rest, cur, curLen =>
    if size < curLen + (words p).length then
      cur :: chunkGroups size rest [p] ((words p).length)
    else
      chunkGroups size rest (cur ++ [p]) (curLen + (words p).length)

/-- split_text_into_chunks from pages/2_Book_Chat.py (lines 28-47): split the
text on blank lines, greedily regroup paragraphs under the word budget, join
each group back with blank lines.  The Python default budget is 1000 and the
indexing loop calls the function with that default. -/
def split_text_into_chunks (text : Str) (chunk_size : Nat) : List Str :=
  (chunkGroups chunk_size (splitPar text) [] 0).map joinPar

/-- One decimal digit as a character. -/
def digitChar (d : Nat) : Char :=
  if d = 0 then '0' else if d = 1 then '1' else if d = 2 then '2'
  else if d = 3 then '3' else if d = 4 then '4' else if d = 5 then '5'
  else if d = 6 then '6' else if d = 7 then '7' else if d = 8 then '8' else '9'

/-- Fuel-driven decimal printer worker. -/
def toDecGo : Nat → Nat → Str
  | 0, _ => []
  | fuel + 1, n =>
    if n < 10 then [digitChar n] else toDecGo fuel (n / 10) ++ [digitChar (n % 10)]

/-- Decimal rendering of a natural number: Python str(i) for i ≥ 0, as used by
the f-string building chunk identifiers. -/
def natToStr (n : Nat) : Str := toDecGo (n + 1) n

/-- Numeric value of a decimal digit character. -/
def digitVal (c : Char) : Nat := c.toNat - 48

/-- Decimal parse of a digit string: Python int(s) on the digit-only strings
produced by the TOC regex group. -/
def parseDec (s : Str) : Nat := s.foldl (fun a c => a * 10 + digitVal c) 0

/-- Python s.strip(): drop whitespace from both ends. -/
def pyStrip (s : Str) : Str :=
  ((s.dropWhile (fun c => isPySpace c)).reverse.dropWhile
    (fun c => isPySpace c)).reverse

/-- Whether pat occurs at the start of s. -/
def listStartsWith : Str → Str → Bool
  | [], _ => true
  | _ :: _, [] => false
  | a :: p1, b :: p2 => a == b && listStartsWith p1 p2

/-- Whether pat occurs anywhere inside s: the Python in operator on str. -/
def isSubstring (pat : Str) : Str → Bool
  | [] => pat.isEmpty
  | c :: rest => listStartsWith pat (c :: rest) || isSubstring pat rest

/-- Python text.lower() (ASCII-relevant part). -/
def lowerStr (s : Str) : Str := s.map Char.toLower

/-- The check from both TOC scans: "table of contents" in text.lower(). -/
def containsTOC (s : Str) : Bool := isSubstring ("table of contents".data) (lowerStr s)

/-- A chapter record as built by extract_chapters_from_pdf: title, 0-based
inclusive start page, exclusive end page.  Pages are integers because the TOC
branch computes int(match[2]) - 1, which is -1 when the matched number is 0. -/
structure Chapter where
  title : Str
  start_page : Int
  end_page : Int
deriving DecidableEq

/-- A top-level entry of the PyPDF2 outline as the repository code consumes it:
whether isinstance(item, dict) holds (nested outline levels are lists, not
dicts, and are skipped), the optional /Title value, and the page resolved by
get_destination_page_number. -/
structure OutlineItem where
  isDict : Bool
  title : Option Str
  destPage : Nat
deriving DecidableEq

/-- The responses of the external collaborators for one uploaded document:
the PyPDF2 outline, the per-page extract_text results of pdfplumber (none when
a page has no extractable text), and the result of re.findall with the TOC
pattern on a given accumulated TOC text (the regex engine is external; every
theorem quantifying over PdfEnv holds for the one findall function the real
pattern denotes). -/
structure PdfEnv where
  outline : List OutlineItem
  pages : List (Option Str)
  tocFindall : Str → List (Str × Str × Str)

/-- A chapter draft before end pages are known: title and 0-based start. -/
abbrev Draft := Str × Int

/-- item.get with the literal default used by both variants. -/
def pyGetTitle (o : Option Str) : Str := o.getD ("Untitled".data)

/-- The outline loop shared by both variants (2_Book_Chat.py lines 56-65):
one draft per top-level dict entry, in order. -/
def outlineDrafts (env : PdfEnv) : List Draft :=
  env.outline.filterMap
    (fun it => if it.isDict then some (pyGetTitle it.title, (it.destPage : Int)) else none)

/-- The TOC drafts built from the findall matches (2_Book_Chat.py lines 87-93):
title is match[1].strip(), start page is int(match[2]) - 1. -/
def tocDraftsOf (env : PdfEnv) (tt : Str) : List Draft :=
  (env.tocFindall tt).map (fun m => (pyStrip m.2.1, (parseDec m.2.2 : Int) - 1))

/-- The end-page loop shared by both variants and both branches
(2_Book_Chat.py lines 67-72 and 95-100): end_page of entry i is the start page
of entry i+1, and the last end_page is the total page count. -/
def fillEnds : List Draft → Int → List Chapter
  | [], _ => []
  | [(t, s)], total => [⟨t, s, total⟩]
  | (t, s) :: d :: rest, total => ⟨t, s, d.2⟩ :: fillEnds (d :: rest) total

/-- One page step of the TOC text accumulation of 2_Book_Chat.py: keep pages
whose truthy text contains "table of contents" (case insensitive), appended
with a newline. -/
def ech_tocStep (acc : Str) (pt : Option Str) : Str :=
  match pt with
  | none => acc
  | some t => if !t.isEmpty && containsTOC t then acc ++ t ++ ['\n'] else acc

/-- The TOC text accumulation of 2_Book_Chat.py (lines 80-86) over the first
10 pages. -/
def ech_tocText (env : PdfEnv) : Str :=
  (env.pages.take 10).foldl ech_tocStep []

/-- One page step of the TOC text accumulation of app2.py (lines 57-63).  It
lacks the truthy guard on text, so a page whose extract_text is None raises
AttributeError on text.lower(); none models that crash. -/
def app2_tocStep (acc : Option Str) (pt : Option Str) : Option Str :=
  match acc, pt with
  | none, _ => none
  | some _, none => none
  | some a, some t => if containsTOC t then some (a ++ t ++ ['\n']) else some a

/-- The TOC text accumulation of app2.py over the first 10 pages. -/
def app2_tocText (env : PdfEnv) : Option Str :=
  (env.pages.take 10).foldl app2_tocStep (some [])

/-- extract_chapters_from_pdf of pages/2_Book_Chat.py (lines 49-101): use the
outline when it is non-empty and yields drafts, else parse the TOC text; both
branches fill end pages against the total page count. -/
def extract_chapters_from_pdf (env : PdfEnv) : List Chapter :=
  let ds := outlineDrafts env
  if 0 < env.outline.length ∧ ¬ ds.isEmpty then
    fillEnds ds ((env.pages.length : Int))
  else
    fillEnds (tocDraftsOf env (ech_tocText env)) ((env.pages.length : Int))

/-- extract_chapters_from_pdf of pages/app2.py (lines 28-80): identical except
that the TOC scan can crash on a page with no extractable text. -/
def app2_extract_chapters_from_pdf (env : PdfEnv) : Option (List Chapter) :=
  let ds := outlineDrafts env
  if 0 < env.outline.length ∧ ¬ ds.isEmpty then
    some (fillEnds ds ((env.pages.length : Int)))
  else
    match app2_tocText env with
    | none => none
    | some tt => some (fillEnds (tocDraftsOf env tt) ((env.pages.length : Int)))

/-- Python range(s, e) over integers. -/
def pyRange (s e : Int) : List Int := (List.range (e - s).toNat).map (fun k => s + (k : Int))

/-- Python list indexing pages[i] with negative-index wraparound; none models
an IndexError. -/
def pyIndex (l : List (Option Str)) (i : Int) : Option (Option Str) :=
  if 0 ≤ i then l[i.toNat]?
  else if 0 ≤ (l.length : Int) + i then l[((l.length : Int) + i).toNat]?
  else none

/-- Loop of extract_chapter_text in 2_Book_Chat.py (lines 103-112): pages with
falsy text (None or empty) are skipped, others are appended with a blank-line
separator. -/
def extract_chapter_text_go (pages : List (Option Str)) : List Int → Str → Option Str
  | [], acc => some acc
  | i :: rest, acc =>
    if i < (pages.length : Int) then
      match pyIndex pages i with
      | none => none
      | some none => extract_chapter_text_go pages rest acc
      | some (some t) =>
        if t.isEmpty then extract_chapter_text_go pages rest acc
        else extract_chapter_text_go pages rest (acc ++ t ++ ['\n', '\n'])
    else extract_chapter_text_go pages rest acc

/-- extract_chapter_text of pages/2_Book_Chat.py (lines 103-112). -/
def extract_chapter_text (pages : List (Option Str)) (s e : Int) : Option Str :=
  extract_chapter_text_go pages (pyRange s e) []

/-- Loop of extract_chapter_text in app2.py (lines 82-89): no falsy guard, so
a None page text raises TypeError (modelled by none) and an empty page text
still appends the bare blank-line separator. -/
def app2_extract_chapter_text_go (pages : List (Option Str)) : List Int → Str → Option Str
  | [], acc => some acc
  | i :: rest, acc =>
    if i < (pages.length : Int) then
      match pyIndex pages i with
      | none => none
      | some none => none
      | some (some t) => app2_extract_chapter_text_go pages rest (acc ++ t ++ ['\n', '\n'])
    else app2_extract_chapter_text_go pages rest acc

/-- extract_chapter_text of pages/app2.py (lines 82-89). -/
def app2_extract_chapter_text (pages : List (Option Str)) (s e : Int) : Option Str :=
  app2_extract_chapter_text_go pages (pyRange s e) []

/-- One chunk identifier of the indexing loop (2_Book_Chat.py line 229). -/
def chunkId (title : Str) (i : Nat) : Str := title ++ ("_chunk_".data) ++ natToStr i

/-- The identifier list for n chunks of one chapter. -/
def chunkIds (title : Str) (n : Nat) : List Str := (List.range n).map (chunkId title)

/-- The (id, document) pairs one chapter contributes to chroma_collection.add,
with the default budget 1000 of the call site (2_Book_Chat.py lines 226-241). -/
def indexEntriesOfText (title text : Str) : List (Str × Str) :=
  (chunkIds title (split_text_into_chunks text 1000).length).zip
    (split_text_into_chunks text 1000)

/-- The add-call contribution of one chapter during the indexing pass. -/
def chapterEntries (pages : List (Option Str)) (ch : Chapter) : Option (List (Str × Str)) :=
  match extract_chapter_text pages ch.start_page ch.end_page with
  | none => none
  | some t => some (indexEntriesOfText ch.title t)

/-- All (id, document) pairs added over the chapter loop, in order. -/
def allEntriesGo (pages : List (Option Str)) : List Chapter → Option (List (Str × Str))
  | [] => some []
  | ch :: rest =>
    match chapterEntries pages ch, allEntriesGo pages rest with
    | some es, some rs => some (es ++ rs)
    | _, _ => none

/-- Outcome of the sidebar upload handler (2_Book_Chat.py lines 213-251). -/
inductive IndexOutcome where
  | indexed : List (Str × Str) → IndexOutcome
  | noChapters : IndexOutcome
  | crashed : IndexOutcome
deriving DecidableEq

/-- The sidebar upload handler decision (2_Book_Chat.py lines 213-251): when
the chapter list is non-empty, index every chapter; otherwise only the warning
"No chapters detected in PDF. Using full document." is shown, nothing is
indexed and the generate button is disabled. -/
def sidebar_index (env : PdfEnv) : IndexOutcome :=
  let chs := extract_chapters_from_pdf env
  if chs.isEmpty then IndexOutcome.noChapters
  else
    match allEntriesGo env.pages chs with
    | some es => IndexOutcome.indexed es
    | none => IndexOutcome.crashed

/-- Modelled from the spec: the content hasher collaborator (hashlib.md5
hexdigest, not code of this repository).  Spec section 6 requires only a
deterministic, collision-free digest of the raw document bytes, so it is
modelled as an injective deterministic function of the bytes. -/
def md5hex (bytes : Str) : Str := bytes

/-- The collection key derived in the upload handler (2_Book_Chat.py lines
215-216): "textbook_" followed by the digest of the raw bytes. -/
def collectionName (bytes : Str) : Str := ("textbook_".data) ++ md5hex bytes

/-- A vector-store collection: ordered (id, document) pairs. -/
abbrev Coll := List (Str × Str)

/-- The persistent store: named collections. -/
abbrev Store := List (Str × Coll)

/-- Lookup of a collection by name. -/
def storeLookup : Store → Str → Option Coll
  | [], _ => none
  | p :: rest, n => if p.1 == n then some p.2 else storeLookup rest n

/-- Modelled from the spec: chroma_client.get_or_create_collection (spec
section 6, creation-or-reuse by collection name; chromadb is not code of this
repository). -/
def get_or_create_collection (s : Store) (n : Str) : Store × Coll :=
  match storeLookup s n with
  | some c => (s, c)
  | none => (s ++ [(n, [])], [])

/-- Modelled from the spec: one upsert into a collection (spec section 4.6,
the indexer upserts chunks by id: overwrite on an existing id, append
otherwise). -/
def collUpsert (c : Coll) (e : Str × Str) : Coll :=
  if c.any (fun p => p.1 == e.1) then
    c.map (fun p => if p.1 == e.1 then e else p)
  else c ++ [e]

/-- Modelled from the spec: Collection.add over a batch of (id, document)
pairs (spec sections 4.6 and 6). -/
def collAdd (c : Coll) (es : List (Str × Str)) : Coll := es.foldl collUpsert c

/-- Replace the contents of a named collection. -/
def storePut (s : Store) (n : Str) (c : Coll) : Store :=
  s.map (fun p => if p.1 == n then (n, c) else p)

/-- One indexing pass of the upload handler against the store: derive the
collection key from the document bytes, get or create the collection, add all
(id, document) pairs. -/
def indexPass (s : Store) (bytes : Str) (es : List (Str × Str)) : Store :=
  storePut (get_or_create_collection s (collectionName bytes)).1 (collectionName bytes)
    (collAdd (get_or_create_collection s (collectionName bytes)).2 es)

/-- A findall oracle for documents whose accumulated TOC text is empty:
re.findall of the TOC pattern on the empty string yields no matches. -/
def noFindall : Str → List (Str × Str × Str) := fun _ => []

/-- A document with a two-entry outline (pages 0 and 1) and three pages of
extractable text. -/
def envOutline2 : PdfEnv :=
  ⟨[⟨true, some ("Intro".data), 0⟩, ⟨true, some ("Methods".data), 1⟩],
   [some ['x'], some ['y'], some ['z']], noFindall⟩

/-- A document with no outline and no page containing a table of contents. -/
def envNoStructure : PdfEnv :=
  ⟨[], [some ['h', 'i'], some ['y', 'o']], noFindall⟩

/-- A document whose outline has two title-less entries: both default to the
title "Untitled". -/
def envDupTitle : PdfEnv :=
  ⟨[⟨true, none, 0⟩, ⟨true, none, 1⟩], [some ['a'], some ['b']], noFindall⟩

/-- A document whose outline has two entries pointing at the same page. -/
def envSamePage : PdfEnv :=
  ⟨[⟨true, none, 0⟩, ⟨true, none, 0⟩], [some ['a']], noFindall⟩

/-- A store is well formed when every collection it holds has pairwise
distinct identifiers. -/
def storeWF (s : Store) : Prop :=
  ∀ n c, storeLookup s n = some c → (c.map Prod.fst).Nodup

/-- Strictly increasing start pages, with the last start below the total:
the well-formedness condition under which the resolver output has positive
page spans. -/
def monoStarts : List Chapter → Int → Bool
  | [], _ => true
  | [c], total => decide (c.start_page < total)
  | c :: d :: rest, total =>
    decide (c.start_page < d.start_page) && monoStarts (d :: rest) total

/-! Lemmas about words, splitPar and joinPar. -/

lemma wordsGo_append_space (c : Char) (hc : isPySpace c = true) :
    ∀ (a b cur : Str), wordsGo (a ++ c :: b) cur = wordsGo a cur ++ wordsGo b [] := by
  intro a
  induction a with
  | nil =>
    intro b cur
    simp only [List.nil_append, wordsGo, hc, if_true]
    by_cases h : cur.isEmpty <;> simp [h, wordsGo]
  | cons x a2 ih =>
    intro b cur
    simp only [List.cons_append, wordsGo]
    by_cases hx : isPySpace x
    · simp only [hx, if_true]
      by_cases h : cur.isEmpty <;> simp [h, ih]
    · simp [hx, ih]

lemma words_sep (a b : Str) : words (a ++ '\n' :: '\n' :: b) = words a ++ words b := by
  have hsp : isPySpace '\n' = true := by decide
  have h1 := wordsGo_append_space '\n' hsp a ('\n' :: b) []
  simp only [words]
  rw [h1]
  congr 1

lemma words_joinPar : ∀ l : List Str, words (joinPar l) = (l.map words).flatten := by
  intro l
  induction l with
  | nil => simp [joinPar, words, wordsGo]
  | cons p t ih =>
    cases t with
    | nil => simp [joinPar]
    | cons q r =>
      rw [show joinPar (p :: q :: r) = p ++ '\n' :: '\n' :: joinPar (q :: r) from rfl]
      rw [words_sep, ih]
      simp

lemma consHead_ne_nil (c : Char) (l : List Str) : consHead c l ≠ [] := by
  cases l <;> simp [consHead]

lemma splitPar_ne_nil : ∀ s : Str, splitPar s ≠ [] := by
  intro s
  induction s using splitPar.induct with
  | case1 => simp [splitPar]
  | case2 c => simp [splitPar]
  | case3 c d rest h ih => simp [splitPar, h]
  | case4 c d rest h ih =>
    rw [show splitPar (c :: d :: rest) = consHead c (splitPar (d :: rest)) by
      simp [splitPar, h]]
    exact consHead_ne_nil c _

lemma joinPar_cons2 (x y : Str) (z : List Str) :
    joinPar (x :: y :: z) = x ++ '\n' :: '\n' :: joinPar (y :: z) := rfl

lemma joinPar_splitPar : ∀ s : Str, joinPar (splitPar s) = s := by
  intro s
  induction s using splitPar.induct with
  | case1 => rfl
  | case2 c => rfl
  | case3 c d rest h ih =>
    obtain ⟨h1, t1, he⟩ : ∃ h1 t1, splitPar rest = h1 :: t1 := by
      cases hsp : splitPar rest with
      | nil => exact absurd hsp (splitPar_ne_nil rest)
      | cons h1 t1 => exact ⟨h1, t1, rfl⟩
    rw [show splitPar (c :: d :: rest) = [] :: splitPar rest by simp [splitPar, h]]
    rw [he, joinPar_cons2, ← he, ih, h.1, h.2]
    rfl
  | case4 c d rest h ih =>
    obtain ⟨h1, t1, he⟩ : ∃ h1 t1, splitPar (d :: rest) = h1 :: t1 := by
      cases hsp : splitPar (d :: rest) with
      | nil => exact absurd hsp (splitPar_ne_nil (d :: rest))
      | cons h1 t1 => exact ⟨h1, t1, rfl⟩
    rw [show splitPar (c :: d :: rest) = consHead c (splitPar (d :: rest)) by
      simp [splitPar, h]]
    rw [he]
    cases t1 with
    | nil =>
      rw [show consHead c [h1] = [c :: h1] from rfl]
      rw [show joinPar [c :: h1] = c :: h1 from rfl]
      have : joinPar [h1] = d :: rest := by rw [← he, ih]
      rw [show joinPar [h1] = h1 from rfl] at this
      rw [this]
    | cons q r =>
      rw [show consHead c (h1 :: q :: r) = (c :: h1) :: q :: r from rfl]
      rw [joinPar_cons2]
      have : joinPar (h1 :: q :: r) = d :: rest := by rw [← he, ih]
      rw [show (c :: h1) ++ '\n' :: '\n' :: joinPar (q :: r) =
        c :: (h1 ++ '\n' :: '\n' :: joinPar (q :: r)) from rfl]
      rw [← joinPar_cons2, this]

lemma splitPar_head_shape : ∀ (d : Char) (rest : Str),
    ∃ t tl, splitPar (d :: rest) = t :: tl ∧ (t = [] ∨ ∃ t2, t = d :: t2) := by
  intro d rest
  cases rest with
  | nil => exact ⟨[d], [], rfl, Or.inr ⟨[], rfl⟩⟩
  | cons e r =>
    by_cases h : d = '\n' ∧ e = '\n'
    · refine ⟨[], splitPar r, ?_, Or.inl rfl⟩
      simp [splitPar, h]
    · obtain ⟨h1, t1, he⟩ : ∃ h1 t1, splitPar (e :: r) = h1 :: t1 := by
        cases hsp : splitPar (e :: r) with
        | nil => exact absurd hsp (splitPar_ne_nil (e :: r))
        | cons h1 t1 => exact ⟨h1, t1, rfl⟩
      refine ⟨d :: h1, t1, ?_, Or.inr ⟨h1, rfl⟩⟩
      rw [show splitPar (d :: e :: r) = consHead d (splitPar (e :: r)) by
        simp [splitPar, h]]
      rw [he]
      rfl

lemma noPar_cons_of (c : Char) (h1 : Str) (hn : noPar h1 = true)
    (hc : h1 = [] ∨ ∃ t2 d, h1 = d :: t2 ∧ ¬(c = '\n' ∧ d = '\n')) :
    noPar (c :: h1) = true := by
  rcases hc with rfl | ⟨t2, d, rfl, hd⟩
  · rfl
  · simp only [noPar, hd, if_false]
    exact hn

lemma noPar_of_mem_splitPar : ∀ (s : Str) (p : Str), p ∈ splitPar s → noPar p = true := by
  intro s
  induction s using splitPar.induct with
  | case1 =>
    intro p hp
    simp [splitPar] at hp
    subst hp; rfl
  | case2 c =>
    intro p hp
    simp [splitPar] at hp
    subst hp; rfl
  | case3 c d rest h ih =>
    intro p hp
    rw [show splitPar (c :: d :: rest) = [] :: splitPar rest by simp [splitPar, h]] at hp
    rcases List.mem_cons.mp hp with rfl | hp2
    · rfl
    · exact ih p hp2
  | case4 c d rest h ih =>
    intro p hp
    rw [show splitPar (c :: d :: rest) = consHead c (splitPar (d :: rest)) by
      simp [splitPar, h]] at hp
    obtain ⟨t, tl, he, hsh⟩ := splitPar_head_shape d rest
    rw [he] at hp
    rw [show consHead c (t :: tl) = (c :: t) :: tl from rfl] at hp
    rcases List.mem_cons.mp hp with rfl | hp2
    · refine noPar_cons_of c t (ih t (by rw [he]; exact List.mem_cons_self t tl)) ?_
      rcases hsh with rfl | ⟨t2, rfl⟩
      · exact Or.inl rfl
      · exact Or.inr ⟨t2, d, rfl, fun hcd => h ⟨hcd.1, hcd.2⟩⟩
    · exact ih p (by rw [he]; exact List.mem_cons_of_mem t hp2)

lemma noPar_tail (c d : Char) (rest : Str) (h : noPar (c :: d :: rest) = true) :
    noPar (d :: rest) = true := by
  by_cases hcd : c = '\n' ∧ d = '\n'
  · simp [noPar, hcd] at h
  · simpa [noPar, hcd] using h

lemma splitPar_of_noPar : ∀ p : Str, noPar p = true → splitPar p = [p] := by
  intro p
  induction p using splitPar.induct with
  | case1 => intro _; rfl
  | case2 c => intro _; rfl
  | case3 c d rest h ih =>
    intro hn
    simp [noPar, h] at hn
  | case4 c d rest h ih =>
    intro hn
    rw [show splitPar (c :: d :: rest) = consHead c (splitPar (d :: rest)) by
      simp [splitPar, h]]
    rw [ih (noPar_tail c d rest hn)]
    rfl

/-! Lemmas about the chunking loop. -/

lemma sumWC_append (g1 g2 : List Str) : sumWC (g1 ++ g2) = sumWC g1 + sumWC g2 := by
  simp [sumWC]

lemma chunkGroups_flatten (size : Nat) :
    ∀ (paras cur : List Str) (curLen : Nat),
      (chunkGroups size paras cur curLen).flatten = cur ++ paras := by
  intro paras
  induction paras with
  | nil =>
    intro cur curLen
    cases cur <;> simp [chunkGroups]
  | cons p rest ih =>
    intro cur curLen
    simp only [chunkGroups]
    by_cases h : size < curLen + (words p).length
    · simp [h, ih]
    · simp [h, ih]

lemma chunkGroups_mem (size : Nat) :
    ∀ (paras cur : List Str) (curLen : Nat),
      curLen = sumWC cur →
      (cur.length ≤ 1 ∨ sumWC cur ≤ size) →
      ∀ g ∈ chunkGroups size paras cur curLen,
        (g.length ≤ 1 ∨ sumWC g ≤ size) ∧ ∀ p ∈ g, p ∈ cur ∨ p ∈ paras := by
  intro paras
  induction paras with
  | nil =>
    intro cur curLen hlen hinv g hg
    cases cur with
    | nil => simp [chunkGroups] at hg
    | cons x xs =>
      simp [chunkGroups] at hg
      subst hg
      exact ⟨hinv, fun p hp => Or.inl hp⟩
  | cons p rest ih =>
    intro cur curLen hlen hinv g hg
    simp only [chunkGroups] at hg
    by_cases h : size < curLen + (words p).length
    · rw [if_pos h] at hg
      rcases List.mem_cons.mp hg with rfl | hg2
      · exact ⟨hinv, fun q hq => Or.inl hq⟩
      · have hres := ih [p] ((words p).length) (by simp [sumWC]) (Or.inl (by simp)) g hg2
        refine ⟨hres.1, fun q hq => ?_⟩
        rcases hres.2 q hq with hql | hqr
        · simp at hql
          exact Or.inr (by simp [hql])
        · exact Or.inr (List.mem_cons_of_mem p hqr)
    · rw [if_neg h] at hg
      have hres := ih (cur ++ [p]) (curLen + (words p).length)
        (by rw [sumWC_append, ← hlen]; simp [sumWC])
        (Or.inr (by rw [sumWC_append, ← hlen]; simp [sumWC]; omega)) g hg
      refine ⟨hres.1, fun q hq => ?_⟩
      rcases hres.2 q hq with hql | hqr
      · rcases List.mem_append.mp hql with hq1 | hq2
        · exact Or.inl hq1
        · simp at hq2
          exact Or.inr (by simp [hq2])
      · exact Or.inr (List.mem_cons_of_mem p hqr)

lemma wordCount_joinPar (g : List Str) : (words (joinPar g)).length = sumWC g := by
  rw [words_joinPar]
  simp [sumWC, List.length_flatten, List.map_map, Function.comp_def]

lemma flatten_map_words_flatten :
    ∀ G : List (List Str),
      (G.map (fun g => ((g.map words).flatten))).flatten = ((G.flatten).map words).flatten := by
  intro G
  induction G with
  | nil => rfl
  | cons g G2 ih => simp [ih]

/-- C3: each chunk of split_text_into_chunks whose text holds more than one
paragraph has word count at most the budget; a chunk can exceed the budget
only by being a single original paragraph, emitted unsplit. -/
theorem C3_chunk_word_budget (text : Str) (size : Nat) (c : Str)
    (hpos : 0 < size) (hc : c ∈ split_text_into_chunks text size) :
    (1 < (splitPar c).length → (words c).length ≤ size) ∧
    (size < (words c).length → c ∈ splitPar text ∧ (splitPar c).length = 1) := by
  obtain ⟨g, hg, rfl⟩ := List.mem_map.mp hc
  have hinv := chunkGroups_mem size (splitPar text) [] 0 (by simp [sumWC]) (Or.inl (by simp)) g hg
  have horig : ∀ p ∈ g, p ∈ splitPar text := by
    intro p hp
    rcases hinv.2 p hp with hql | hqr
    · simp at hql
    · exact hqr
  have hwc : (words (joinPar g)).length = sumWC g := wordCount_joinPar g
  constructor
  · intro h1
    rcases hinv.1 with hlen | hsum
    · exfalso
      match g, hlen with
      | [], _ =>
        rw [show joinPar [] = [] from rfl] at h1
        simp [splitPar] at h1
      | [p0], _ =>
        rw [show joinPar [p0] = p0 from rfl] at h1
        rw [splitPar_of_noPar p0
          (noPar_of_mem_splitPar text p0 (horig p0 (by simp)))] at h1
        simp at h1
      | p0 :: p1 :: t, hlen => simp at hlen
    · rw [hwc]; exact hsum
  · intro h2
    rw [hwc] at h2
    have hlen : g.length ≤ 1 := by
      rcases hinv.1 with hlen | hsum
      · exact hlen
      · omega
    match g, hlen, h2, horig with
    | [], _, h2, _ => simp [sumWC] at h2
    | [p0], _, _, horig =>
      have hp0 : p0 ∈ splitPar text := horig p0 (by simp)
      rw [show joinPar [p0] = p0 from rfl]
      refine ⟨hp0, ?_⟩
      rw [splitPar_of_noPar p0 (noPar_of_mem_splitPar text p0 hp0)]
      rfl
    | p0 :: p1 :: t, hlen, _, _ => simp at hlen

/-- C3 witness: with budget 2, the single 3-word paragraph "a b c" is its own
oversized chunk, emitted unsplit. -/
theorem C3_chunk_word_budget_witness :
    "a b c".data ∈ splitPar ("a b c".data) ∧ (splitPar ("a b c".data)).length = 1 :=
  (C3_chunk_word_budget ("a b c".data) 2 ("a b c".data) (by decide) (by decide)).2 (by decide)

/-- C4: joining all chunks of a text with blank-line separators preserves the
word sequence of the text: no words are lost, duplicated or reordered. -/
theorem C4_chunk_roundtrip (text : Str) (size : Nat) :
    words (joinPar (split_text_into_chunks text size)) = words text := by
  rw [split_text_into_chunks, words_joinPar, List.map_map]
  have hcong : (chunkGroups size (splitPar text) [] 0).map (words ∘ joinPar) =
      (chunkGroups size (splitPar text) [] 0).map (fun g => ((g.map words).flatten)) := by
    apply List.map_congr_left
    intro g _
    exact words_joinPar g
  rw [hcong, flatten_map_words_flatten, chunkGroups_flatten]
  rw [show ([] : List Str) ++ splitPar text = splitPar text from rfl]
  rw [← words_joinPar, joinPar_splitPar]

/-- C5 counterexample: chunking the empty string does NOT yield zero chunks. -/
theorem C5_empty_text_counterexample : split_text_into_chunks [] 1000 ≠ [] := by decide

/-- C5 amended: chunking the empty string yields exactly one chunk, the empty
string, for every budget; the indexing loop therefore hands the vector store
one empty document with identifier title ++ "_chunk_0" instead of adding
nothing; no message is surfaced for it. -/
theorem C5_empty_text_one_empty_chunk (size : Nat) (title : Str) :
    split_text_into_chunks [] size = [[]] ∧
    indexEntriesOfText title [] = [(chunkId title 0, [])] := by
  have h1 : split_text_into_chunks [] size = [[]] := by
    rw [split_text_into_chunks]
    rw [show splitPar [] = [[]] from rfl]
    rw [show chunkGroups size [[]] [] 0 =
      if size < 0 + (words []).length then
        [] :: chunkGroups size [] [[]] ((words []).length)
      else chunkGroups size [] ([] ++ [[]]) (0 + (words []).length) from rfl]
    rw [if_neg (by simp [words, wordsGo])]
    rfl
  refine ⟨h1, ?_⟩
  rw [indexEntriesOfText, show split_text_into_chunks [] 1000 = [[]] from by decide]
  rfl

/-- C10: when the first paragraph alone exceeds the budget, the first emitted
chunk is the empty string (the oversized paragraph seals the still-empty
accumulation), so chunk texts are not guaranteed non-empty. -/
theorem C10_leading_empty_chunk (text : Str) (size : Nat) (p : Str) (rest : List Str)
    (hsplit : splitPar text = p :: rest) (hw : size < (words p).length) :
    (split_text_into_chunks text size).head? = some [] := by
  rw [split_text_into_chunks, hsplit]
  rw [show chunkGroups size (p :: rest) [] 0 =
    if size < 0 + (words p).length then
      [] :: chunkGroups size rest [p] ((words p).length)
    else chunkGroups size rest ([] ++ [p]) (0 + (words p).length) from rfl]
  rw [if_pos (by omega)]
  rfl

/-- C10 witness: with budget 1 and the single 2-word paragraph "a b", the
first chunk is the empty string. -/
theorem C10_leading_empty_chunk_witness :
    (split_text_into_chunks ("a b".data) 1).head? = some [] :=
  C10_leading_empty_chunk ("a b".data) 1 ("a b".data) [] (by decide) (by decide)

/-! Lemmas about the chapter resolver. -/

lemma fillEnds_head_shape (d : Draft) (rest : List Draft) (total : Int) :
    ∃ e tl, fillEnds (d :: rest) total = ⟨d.1, d.2, e⟩ :: tl := by
  obtain ⟨t, s⟩ := d
  cases rest with
  | nil => exact ⟨total, [], rfl⟩
  | cons d2 rest2 => exact ⟨d2.2, fillEnds (d2 :: rest2) total, rfl⟩

lemma fillEnds_chain (total : Int) :
    ∀ (ds : List Draft) (i : Nat) (a b : Chapter),
      (fillEnds ds total)[i]? = some a → (fillEnds ds total)[i+1]? = some b →
      a.end_page = b.start_page := by
  intro ds
  induction ds with
  | nil => intro i a b ha hb; simp [fillEnds] at ha
  | cons d rest ih =>
    intro i a b ha hb
    obtain ⟨t, s⟩ := d
    cases rest with
    | nil =>
      rw [show fillEnds [(t, s)] total = [⟨t, s, total⟩] from rfl] at hb
      rw [List.getElem?_cons_succ] at hb
      simp at hb
    | cons d2 rest2 =>
      rw [show fillEnds ((t, s) :: d2 :: rest2) total =
        ⟨t, s, d2.2⟩ :: fillEnds (d2 :: rest2) total from rfl] at ha hb
      cases i with
      | zero =>
        rw [List.getElem?_cons_zero] at ha
        rw [List.getElem?_cons_succ] at hb
        obtain ⟨e, tl, he⟩ := fillEnds_head_shape d2 rest2 total
        rw [he, List.getElem?_cons_zero] at hb
        injection ha with ha2
        injection hb with hb2
        rw [← ha2, ← hb2]
      | succ j =>
        rw [List.getElem?_cons_succ] at ha hb
        exact ih j a b ha hb

lemma fillEnds_last (total : Int) :
    ∀ (ds : List Draft) (i : Nat) (a : Chapter),
      (fillEnds ds total)[i]? = some a → (fillEnds ds total)[i+1]? = none →
      a.end_page = total := by
  intro ds
  induction ds with
  | nil => intro i a ha hb; simp [fillEnds] at ha
  | cons d rest ih =>
    intro i a ha hb
    obtain ⟨t, s⟩ := d
    cases rest with
    | nil =>
      rw [show fillEnds [(t, s)] total = [⟨t, s, total⟩] from rfl] at ha
      cases i with
      | zero =>
        rw [List.getElem?_cons_zero] at ha
        injection ha with ha2
        rw [← ha2]
      | succ j =>
        rw [List.getElem?_cons_succ] at ha
        simp at ha
    | cons d2 rest2 =>
      rw [show fillEnds ((t, s) :: d2 :: rest2) total =
        ⟨t, s, d2.2⟩ :: fillEnds (d2 :: rest2) total from rfl] at ha hb
      cases i with
      | zero =>
        rw [List.getElem?_cons_succ] at hb
        obtain ⟨e, tl, he⟩ := fillEnds_head_shape d2 rest2 total
        rw [he, List.getElem?_cons_zero] at hb
        simp at hb
      | succ j =>
        rw [List.getElem?_cons_succ] at ha hb
        exact ih j a ha hb

lemma extract_chapters_eq (env : PdfEnv) :
    ∃ ds, extract_chapters_from_pdf env = fillEnds ds ((env.pages.length : Int)) := by
  by_cases h : 0 < env.outline.length ∧ ¬ (outlineDrafts env).isEmpty
  · exact ⟨outlineDrafts env, by simp only [extract_chapters_from_pdf]; rw [if_pos h]⟩
  · exact ⟨tocDraftsOf env (ech_tocText env), by
      simp only [extract_chapters_from_pdf]; rw [if_neg h]⟩

lemma fillEnds_mono (total : Int) :
    ∀ ds : List Draft, monoStarts (fillEnds ds total) total = true →
      ∀ ch ∈ fillEnds ds total, ch.start_page < ch.end_page := by
  intro ds
  induction ds with
  | nil => intro h ch hch; simp [fillEnds] at hch
  | cons d rest ih =>
    obtain ⟨t, s⟩ := d
    cases rest with
    | nil =>
      intro h ch hch
      rw [show fillEnds [(t, s)] total = [⟨t, s, total⟩] from rfl] at h hch
      simp only [monoStarts, decide_eq_true_eq] at h
      simp at hch
      subst hch
      exact h
    | cons d2 rest2 =>
      intro h ch hch
      rw [show fillEnds ((t, s) :: d2 :: rest2) total =
        ⟨t, s, d2.2⟩ :: fillEnds (d2 :: rest2) total from rfl] at h hch
      obtain ⟨e, tl, he⟩ := fillEnds_head_shape d2 rest2 total
      rw [he] at h hch
      simp only [monoStarts, Bool.and_eq_true, decide_eq_true_eq] at h
      rcases List.mem_cons.mp hch with rfl | hch2
      · exact h.1
      · refine ih ?_ ch (by rw [he]; exact hch2)
        rw [he]
        exact h.2

/-- C1: in every chapter list produced by extract_chapters_from_pdf (outline
branch or TOC branch), the end page of a chapter is the start page of the next
chapter, and the end page of the last chapter is the total page count. -/
theorem C1_chapter_end_chaining (env : PdfEnv) (i : Nat) (a b : Chapter)
    (ha : (extract_chapters_from_pdf env)[i]? = some a) :
    ((extract_chapters_from_pdf env)[i+1]? = some b → a.end_page = b.start_page) ∧
    ((extract_chapters_from_pdf env)[i+1]? = none →
      a.end_page = ((env.pages.length : Int))) := by
  obtain ⟨ds, hds⟩ := extract_chapters_eq env
  rw [hds] at ha ⊢
  exact ⟨fun hb => fillEnds_chain _ ds i a b ha hb,
         fun hb => fillEnds_last _ ds i a ha hb⟩

/-- C1 witness: on a document with outline entries at pages 0 and 1 and three
pages, the first chapter ends where the second starts, and the second ends at
the page count. -/
theorem C1_chapter_end_chaining_witness :
    (Chapter.mk ("Intro".data) 0 1).end_page = (Chapter.mk ("Methods".data) 1 3).start_page ∧
    (Chapter.mk ("Methods".data) 1 3).end_page = ((envOutline2.pages.length : Int)) :=
  ⟨(C1_chapter_end_chaining envOutline2 0 ⟨"Intro".data, 0, 1⟩ ⟨"Methods".data, 1, 3⟩
      (by decide)).1 (by decide),
   (C1_chapter_end_chaining envOutline2 1 ⟨"Methods".data, 1, 3⟩ ⟨"Methods".data, 1, 3⟩
      (by decide)).2 (by decide)⟩

/-- C2: on a document with no outline and no discoverable TOC the chapter list
is empty and the upload handler indexes nothing: the warning branch is taken
(its message claims the full document is used, but no single whole-document
chapter is built, extracted, chunked or indexed). -/
theorem C2_no_structure_indexes_nothing :
    extract_chapters_from_pdf envNoStructure = [] ∧
    sidebar_index envNoStructure = IndexOutcome.noChapters := by decide

/-- C6 counterexample: two outline entries pointing at the same page produce a
chapter whose start page equals its end page, and it is not dropped: it is
returned to the caller. -/
theorem C6_zero_span_counterexample :
    extract_chapters_from_pdf envSamePage =
      [⟨"Untitled".data, 0, 0⟩, ⟨"Untitled".data, 0, 1⟩] ∧
    ¬ ((⟨"Untitled".data, 0, 0⟩ : Chapter).start_page <
       (⟨"Untitled".data, 0, 0⟩ : Chapter).end_page) := by decide

/-- C6 amended: the code never drops degenerate chapters; start_page strictly
below end_page holds for every produced chapter exactly under the
well-formedness condition that start pages strictly increase and the last
start page is below the total page count. -/
theorem C6_positive_span_under_mono (env : PdfEnv)
    (h : monoStarts (extract_chapters_from_pdf env) ((env.pages.length : Int)) = true) :
    ∀ ch ∈ extract_chapters_from_pdf env, ch.start_page < ch.end_page := by
  obtain ⟨ds, hds⟩ := extract_chapters_eq env
  rw [hds] at h ⊢
  exact fillEnds_mono _ ds h

/-- C6 witness: on the increasing two-entry outline document the first chapter
has a positive page span. -/
theorem C6_positive_span_under_mono_witness :
    (Chapter.mk ("Intro".data) 0 1).start_page < (Chapter.mk ("Intro".data) 0 1).end_page :=
  C6_positive_span_under_mono envOutline2 (by decide) ⟨"Intro".data, 0, 1⟩ (by decide)

/-! Lemmas about chunk identifiers. -/

lemma digitVal_digitChar (d : Nat) (h : d < 10) : digitVal (digitChar d) = d := by
  interval_cases d <;> decide

lemma parse_toDecGo :
    ∀ (fuel n a : Nat), n < fuel →
      (toDecGo fuel n).foldl (fun x c => x * 10 + digitVal c) a =
        a * 10 ^ (toDecGo fuel n).length + n := by
  intro fuel
  induction fuel with
  | zero => intro n a h; omega
  | succ fuel ih =>
    intro n a h
    rw [show toDecGo (fuel + 1) n =
      if n < 10 then [digitChar n]
      else toDecGo fuel (n / 10) ++ [digitChar (n % 10)] from rfl]
    by_cases h10 : n < 10
    · rw [if_pos h10]
      simp [List.foldl, digitVal_digitChar n h10]
    · rw [if_neg h10]
      have hdiv : n / 10 < fuel := by
        have h1 : n / 10 < n := Nat.div_lt_self (by omega) (by omega)
        omega
      rw [List.foldl_append, ih (n / 10) a hdiv]
      rw [show List.foldl (fun x c => x * 10 + digitVal c)
        (a * 10 ^ (toDecGo fuel (n / 10)).length + n / 10) [digitChar (n % 10)] =
        (a * 10 ^ (toDecGo fuel (n / 10)).length + n / 10) * 10 +
          digitVal (digitChar (n % 10)) from rfl]
      rw [digitVal_digitChar (n % 10) (Nat.mod_lt n (by omega))]
      rw [List.length_append, List.length_singleton, pow_succ, ← mul_assoc]
      generalize a * 10 ^ (toDecGo fuel (n / 10)).length = B
      omega

lemma parseDec_natToStr (n : Nat) : parseDec (natToStr n) = n := by
  have h := parse_toDecGo (n + 1) n 0 (by omega)
  simpa [parseDec, natToStr] using h

lemma natToStr_injective : Function.Injective natToStr := by
  intro m n h
  have hm := parseDec_natToStr m
  rw [h, parseDec_natToStr] at hm
  exact hm.symm

lemma chunkId_injective (title : Str) : Function.Injective (chunkId title) := by
  intro i j h
  apply natToStr_injective
  exact List.append_right_injective (title ++ ("_chunk_".data)) h

lemma chunkIds_nodup (title : Str) (n : Nat) : (chunkIds title n).Nodup :=
  (List.nodup_range n).map (chunkId_injective title)

/-- C7 counterexample: a document whose outline has two title-less entries
yields two chapters both titled "Untitled", and the indexing pass emits the
identifier "Untitled_chunk_0" twice: the index-wide identifier list is not
pairwise distinct. -/
theorem C7_duplicate_ids_counterexample :
    ∃ es, sidebar_index envDupTitle = IndexOutcome.indexed es ∧
      ¬ (es.map Prod.fst).Nodup :=
  ⟨[("Untitled_chunk_0".data, "a\n\n".data), ("Untitled_chunk_0".data, "b\n\n".data)],
   by decide, by decide⟩

/-- C7 amended: within one chapter the chunk identifiers are pairwise
distinct; but any two chapters carrying an equal title contribute colliding
identifiers (each non-empty identifier list contains title ++ "_chunk_0"),
so distinctness across the whole index fails whenever titles repeat. -/
theorem C7_ids_distinct_within_chapter (title : Str) (n m : Nat) :
    (chunkIds title n).Nodup ∧
    (0 < n → 0 < m → ¬ (chunkIds title n ++ chunkIds title m).Nodup) := by
  refine ⟨chunkIds_nodup title n, ?_⟩
  intro hn hm hnodup
  have h0n : chunkId title 0 ∈ chunkIds title n :=
    List.mem_map.mpr ⟨0, List.mem_range.mpr hn, rfl⟩
  have h0m : chunkId title 0 ∈ chunkIds title m :=
    List.mem_map.mpr ⟨0, List.mem_range.mpr hm, rfl⟩
  exact (List.disjoint_of_nodup_append hnodup) h0n h0m

/-- C7 amended witness: one chunk of a chapter titled "Untitled" has a
duplicate-free identifier list, while two same-titled chapters collide. -/
theorem C7_ids_distinct_within_chapter_witness :
    (chunkIds ("Untitled".data) 1).Nodup ∧
    ¬ (chunkIds ("Untitled".data) 1 ++ chunkIds ("Untitled".data) 1).Nodup :=
  ⟨(C7_ids_distinct_within_chapter ("Untitled".data) 1 1).1,
   (C7_ids_distinct_within_chapter ("Untitled".data) 1 1).2 (by decide) (by decide)⟩

/-! Lemmas about the vector store model. -/

lemma map_fst_storePut (s : Store) (n : Str) (c : Coll) :
    (storePut s n c).map Prod.fst = s.map Prod.fst := by
  simp only [storePut, List.map_map]
  apply List.map_congr_left
  intro p _
  by_cases h : p.1 == n
  · simp only [Function.comp_def]
    rw [if_pos h]
    exact (eq_of_beq h).symm
  · simp only [Function.comp_def]
    rw [if_neg h]

lemma storeLookup_some_of_mem_fst :
    ∀ (s : Store) (n : Str), n ∈ s.map Prod.fst → ∃ c, storeLookup s n = some c := by
  intro s
  induction s with
  | nil => intro n h; simp at h
  | cons p rest ih =>
    intro n h
    by_cases hp : p.1 == n
    · exact ⟨p.2, by simp [storeLookup, hp]⟩
    · simp only [List.map_cons, List.mem_cons] at h
      rcases h with h | h
      · exact absurd (beq_iff_eq.mpr h.symm) hp
      · obtain ⟨c, hc⟩ := ih n h
        exact ⟨c, by simp [storeLookup, hp, hc]⟩

lemma mem_fst_of_storeLookup_some :
    ∀ (s : Store) (n : Str) (c : Coll), storeLookup s n = some c → n ∈ s.map Prod.fst := by
  intro s
  induction s with
  | nil => intro n c h; simp [storeLookup] at h
  | cons p rest ih =>
    intro n c h
    simp only [storeLookup] at h
    by_cases hp : p.1 == n
    · simp only [List.map_cons, List.mem_cons]
      exact Or.inl (eq_of_beq hp).symm
    · rw [if_neg (by simpa using hp)] at h
      exact List.mem_cons_of_mem p.1 (ih n c h)

lemma storeLookup_storePut_self :
    ∀ (s : Store) (n : Str) (c : Coll), n ∈ s.map Prod.fst →
      storeLookup (storePut s n c) n = some c := by
  intro s
  induction s with
  | nil => intro n c h; simp at h
  | cons p rest ih =>
    intro n c h
    simp only [storePut, List.map_cons]
    by_cases hp : p.1 == n
    · rw [if_pos hp]
      simp [storeLookup]
    · rw [if_neg hp]
      simp only [storeLookup, hp, if_neg (by simpa using hp)]
      apply ih
      simp only [List.map_cons, List.mem_cons] at h
      rcases h with h | h
      · exact absurd (beq_iff_eq.mpr h.symm) hp
      · exact h

lemma storeLookup_storePut_other :
    ∀ (s : Store) (n : Str) (c : Coll) (m : Str), m ≠ n →
      storeLookup (storePut s n c) m = storeLookup s m := by
  intro s
  induction s with
  | nil => intro n c m hm; rfl
  | cons p rest ih =>
    intro n c m hm
    simp only [storePut, List.map_cons]
    by_cases hp : p.1 == n
    · rw [if_pos hp]
      have h1 : ((n, c).1 == m) = false := by
        simp only [beq_eq_false_iff_ne, ne_eq]
        exact fun hcontra => hm hcontra.symm
      have h2 : (p.1 == m) = false := by
        simp only [beq_eq_false_iff_ne, ne_eq]
        rw [eq_of_beq hp]
        exact fun hcontra => hm hcontra.symm
      simp only [storeLookup, h1, h2, if_false]
      exact ih n c m hm
    · rw [if_neg hp]
      simp only [storeLookup]
      by_cases hq : p.1 == m
      · rw [if_pos hq, if_pos hq]
      · rw [if_neg hq, if_neg hq]
        exact ih n c m hm

lemma storeLookup_append_single :
    ∀ (s : Store) (n m : Str) (c0 : Coll),
      storeLookup (s ++ [(n, c0)]) m =
        match storeLookup s m with
        | some c => some c
        | none => if n == m then some c0 else none := by
  intro s
  induction s with
  | nil => intro n m c0; rfl
  | cons p rest ih =>
    intro n m c0
    simp only [List.cons_append, storeLookup]
    by_cases hp : p.1 == m
    · rw [if_pos hp, if_pos hp]
    · rw [if_neg hp, if_neg hp]
      exact ih n m c0

lemma keys_nodup_collUpsert (c : Coll) (e : Str × Str)
    (h : (c.map Prod.fst).Nodup) : ((collUpsert c e).map Prod.fst).Nodup := by
  rw [collUpsert]
  by_cases hx : c.any (fun p => p.1 == e.1)
  · rw [if_pos hx]
    have hmap : (c.map (fun p => if p.1 == e.1 then e else p)).map Prod.fst =
        c.map Prod.fst := by
      rw [List.map_map]
      apply List.map_congr_left
      intro p _
      by_cases hp : p.1 == e.1
      · simp only [Function.comp_def]
        rw [if_pos hp]
        exact (eq_of_beq hp).symm
      · simp only [Function.comp_def]
        rw [if_neg hp]
    rw [hmap]
    exact h
  · rw [if_neg hx]
    rw [List.map_append, List.map_singleton]
    refine List.Nodup.append h (List.nodup_singleton e.1) ?_
    intro a ha hb
    simp only [List.mem_singleton] at hb
    subst hb
    apply hx
    rw [List.any_eq_true]
    obtain ⟨p, hp, hfst⟩ := List.mem_map.mp ha
    exact ⟨p, hp, by rw [hfst]; exact beq_self_eq_true e.1⟩

lemma keys_nodup_collAdd (es : List (Str × Str)) :
    ∀ c : Coll, (c.map Prod.fst).Nodup → ((collAdd c es).map Prod.fst).Nodup := by
  induction es with
  | nil => intro c h; exact h
  | cons e rest ih =>
    intro c h
    exact ih (collUpsert c e) (keys_nodup_collUpsert c e h)

lemma mem_fst_indexPass (s : Store) (bytes : Str) (es : List (Str × Str)) :
    collectionName bytes ∈ (indexPass s bytes es).map Prod.fst := by
  rw [indexPass, map_fst_storePut, get_or_create_collection]
  cases hlk : storeLookup s (collectionName bytes) with
  | some c =>
    exact mem_fst_of_storeLookup_some s (collectionName bytes) c hlk
  | none => simp

lemma indexPass_wf (s : Store) (bytes : Str) (es : List (Str × Str))
    (hwf : storeWF s) : storeWF (indexPass s bytes es) := by
  intro n2 c2 h2
  rw [indexPass] at h2
  by_cases hn : n2 = collectionName bytes
  · rw [get_or_create_collection] at h2
    rw [hn] at h2
    cases hlk : storeLookup s (collectionName bytes) with
    | some c =>
      rw [hlk] at h2
      rw [storeLookup_storePut_self s _ _
        (mem_fst_of_storeLookup_some s _ c hlk)] at h2
      injection h2 with h3
      rw [← h3]
      exact keys_nodup_collAdd es c (hwf _ c hlk)
    | none =>
      rw [hlk] at h2
      have hmem : collectionName bytes ∈
          (s ++ [(collectionName bytes, ([] : Coll))]).map Prod.fst := by simp
      rw [storeLookup_storePut_self _ _ _ hmem] at h2
      injection h2 with h3
      rw [← h3]
      exact keys_nodup_collAdd es [] (by simp)
  · rw [get_or_create_collection] at h2
    cases hlk : storeLookup s (collectionName bytes) with
    | some c =>
      rw [hlk] at h2
      rw [storeLookup_storePut_other s _ _ n2 hn] at h2
      exact hwf n2 c2 h2
    | none =>
      rw [hlk] at h2
      rw [storeLookup_storePut_other _ _ _ n2 hn] at h2
      rw [storeLookup_append_single] at h2
      cases hlk2 : storeLookup s n2 with
      | some c3 =>
        rw [hlk2] at h2
        injection h2 with h3
        rw [← h3]
        exact hwf n2 c3 hlk2
      | none =>
        rw [hlk2] at h2
        rw [if_neg (fun hcontra => hn (eq_of_beq hcontra).symm)] at h2
        simp at h2

/-- C8: re-indexing identical document bytes derives the identical collection
key (the key is a deterministic function of the bytes), reuses the existing
collection instead of creating a second one (the store names are unchanged by
the second pass), and the resulting collection holds no duplicate chunk
identifiers. -/
theorem C8_reindex_overwrites (s : Store) (bytes : Str) (es : List (Str × Str))
    (hwf : storeWF s) :
    (indexPass (indexPass s bytes es) bytes es).map Prod.fst =
      (indexPass s bytes es).map Prod.fst ∧
    ∀ c, storeLookup (indexPass (indexPass s bytes es) bytes es)
        (collectionName bytes) = some c → (c.map Prod.fst).Nodup := by
  constructor
  · rw [show indexPass (indexPass s bytes es) bytes es =
      storePut (get_or_create_collection (indexPass s bytes es) (collectionName bytes)).1
        (collectionName bytes)
        (collAdd (get_or_create_collection (indexPass s bytes es) (collectionName bytes)).2 es)
      from rfl]
    rw [map_fst_storePut]
    obtain ⟨c, hc⟩ := storeLookup_some_of_mem_fst (indexPass s bytes es)
      (collectionName bytes) (mem_fst_indexPass s bytes es)
    rw [get_or_create_collection, hc]
  · intro c hc
    exact indexPass_wf (indexPass s bytes es) bytes es
      (indexPass_wf s bytes es hwf) (collectionName bytes) c hc

/-- C8 witness: indexing one entry twice from the empty store leaves one
collection and a duplicate-free identifier list. -/
theorem C8_reindex_overwrites_witness :
    (indexPass (indexPass [] ['b'] [(['i'], ['d'])]) ['b'] [(['i'], ['d'])]).map Prod.fst =
      (indexPass [] ['b'] [(['i'], ['d'])]).map Prod.fst :=
  (C8_reindex_overwrites [] ['b'] [(['i'], ['d'])]
    (fun n c h => by simp [storeLookup] at h)).1

/-! Lemmas comparing the two vendor variants. -/

lemma pyIndex_mem (pages : List (Option Str)) (i : Int) (v : Option Str)
    (h : pyIndex pages i = some v) : v ∈ pages := by
  rw [pyIndex] at h
  by_cases h1 : 0 ≤ i
  · rw [if_pos h1] at h
    exact List.getElem?_mem h
  · rw [if_neg h1] at h
    by_cases h2 : 0 ≤ (pages.length : Int) + i
    · rw [if_pos h2] at h
      exact List.getElem?_mem h
    · rw [if_neg h2] at h
      exact absurd h (by simp)

lemma tocText_agree (env : PdfEnv)
    (h : ∀ pt ∈ env.pages, ∃ t, pt = some t ∧ t ≠ []) :
    app2_tocText env = some (ech_tocText env) := by
  rw [app2_tocText, ech_tocText]
  have hsub : ∀ pt ∈ env.pages.take 10, ∃ t, pt = some t ∧ t ≠ [] :=
    fun pt hpt => h pt (List.take_subset 10 env.pages hpt)
  revert hsub
  generalize env.pages.take 10 = l
  suffices hgen : ∀ (l2 : List (Option Str)),
      (∀ pt ∈ l2, ∃ t, pt = some t ∧ t ≠ []) →
      ∀ a : Str, l2.foldl app2_tocStep (some a) = some (l2.foldl ech_tocStep a) by
    intro hsub
    exact hgen l hsub []
  intro l2
  induction l2 with
  | nil => intro _ a; rfl
  | cons pt rest ih =>
    intro hl a
    obtain ⟨t, rfl, ht⟩ := hl pt (List.mem_cons_self pt rest)
    simp only [List.foldl_cons]
    have hne : t.isEmpty = false := by
      cases t with
      | nil => exact absurd rfl ht
      | cons c cs => rfl
    have hrest : ∀ q ∈ rest, ∃ t2, q = some t2 ∧ t2 ≠ [] :=
      fun q hq => hl q (List.mem_cons_of_mem (some t) hq)
    by_cases hct : containsTOC t
    · rw [show app2_tocStep (some a) (some t) = some (a ++ t ++ ['\n']) by
        simp [app2_tocStep, hct]]
      rw [show ech_tocStep a (some t) = a ++ t ++ ['\n'] by
        simp [ech_tocStep, hne, hct]]
      exact ih hrest (a ++ t ++ ['\n'])
    · rw [show app2_tocStep (some a) (some t) = some a by simp [app2_tocStep, hct]]
      rw [show ech_tocStep a (some t) = a by simp [ech_tocStep, hne, hct]]
      exact ih hrest a

lemma chapter_text_go_agree (pages : List (Option Str))
    (h : ∀ pt ∈ pages, ∃ t, pt = some t ∧ t ≠ []) :
    ∀ (idxs : List Int) (acc : Str),
      app2_extract_chapter_text_go pages idxs acc =
        extract_chapter_text_go pages idxs acc := by
  intro idxs
  induction idxs with
  | nil => intro acc; rfl
  | cons i rest ih =>
    intro acc
    simp only [extract_chapter_text_go, app2_extract_chapter_text_go]
    by_cases hi : i < (pages.length : Int)
    · rw [if_pos hi, if_pos hi]
      cases hidx : pyIndex pages i with
      | none => simp only [hidx]
      | some v =>
        cases v with
        | none =>
          exfalso
          obtain ⟨t, ht, _⟩ := h none (pyIndex_mem pages i none hidx)
          exact Option.noConfusion ht
        | some t =>
          obtain ⟨t2, ht2, hne⟩ := h (some t) (pyIndex_mem pages i (some t) hidx)
          have htt : t = t2 := by injection ht2
          have hemp : t.isEmpty = false := by
            rw [htt]
            cases t2 with
            | nil => exact absurd rfl hne
            | cons c cs => rfl
          simp only [hidx, hemp, Bool.false_eq_true, if_false]
          exact ih (acc ++ t ++ ['\n', '\n'])
    · rw [if_neg hi, if_neg hi]
      exact ih acc

lemma extract_chapters_agree (env : PdfEnv)
    (h : ∀ pt ∈ env.pages, ∃ t, pt = some t ∧ t ≠ []) :
    app2_extract_chapters_from_pdf env = some (extract_chapters_from_pdf env) := by
  simp only [app2_extract_chapters_from_pdf, extract_chapters_from_pdf]
  by_cases hb : 0 < env.outline.length ∧ ¬ (outlineDrafts env).isEmpty
  · rw [if_pos hb, if_pos hb]
  · rw [if_neg hb, if_neg hb]
    rw [tocText_agree env h]

/-- C9 counterexample: on a page with no extractable text the two variants of
extract_chapter_text disagree: the OpenAI variant skips the page and returns
the empty text while the Anthropic variant raises a TypeError. -/
theorem C9_variant_divergence_counterexample :
    app2_extract_chapter_text [none] 0 1 ≠ extract_chapter_text [none] 0 1 := by decide

/-- C9 amended: the two vendor variants agree (equal chapter lists and equal
chapter text for every page range) whenever every page of the document yields
non-empty extractable text; they diverge on pages with missing text (the
Anthropic variant raises where the OpenAI variant skips) and on empty-text
pages (the Anthropic variant appends a bare blank-line separator). -/
theorem C9_variants_agree_on_nonempty_pages (env : PdfEnv)
    (h : ∀ pt ∈ env.pages, ∃ t, pt = some t ∧ t ≠ []) :
    app2_extract_chapters_from_pdf env = some (extract_chapters_from_pdf env) ∧
    ∀ s e : Int, app2_extract_chapter_text env.pages s e =
      extract_chapter_text env.pages s e := by
  refine ⟨extract_chapters_agree env h, fun s e => ?_⟩
  rw [app2_extract_chapter_text, extract_chapter_text]
  exact chapter_text_go_agree env.pages h (pyRange s e) []

/-- C9 amended witness: on the all-pages-nonempty outline document the two
variants return the same chapter list. -/
theorem C9_variants_agree_on_nonempty_pages_witness :
    app2_extract_chapters_from_pdf envOutline2 =
      some (extract_chapters_from_pdf envOutline2) :=
  (C9_variants_agree_on_nonempty_pages envOutline2 (by
    intro pt hpt
    simp only [envOutline2, List.mem_cons, List.not_mem_nil, or_false] at hpt
    rcases hpt with rfl | rfl | rfl
    · exact ⟨['x'], rfl, by decide⟩
    · exact ⟨['y'], rfl, by decide⟩
    · exact ⟨['z'], rfl, by decide⟩)).1

end EduChat
